import Mathlib

/-!
Verification of the time-alignment and price-cleaning core of the
frictional-price-discovery ingestion pipeline.

The embedding models UTC instants as integer seconds since an epoch,
numeric field values as rationals, and Python `None` / unparseable
values through `Option`.  Functions that can raise `ValueError` are
modelled with `Except String`.
-/

namespace FPD

/-! ## Minute index builder (`ingestion/transforms/time_align.py`, `ingestion/utils_time.py`) -/

/-- `floor_to_utc_minute`: zero out the seconds field of a UTC instant,
i.e. floor the epoch-second count to a multiple of 60. -/
def floor_to_utc_minute (t : ℤ) : ℤ := 60 * Int.fdiv t 60

/-- `build_minute_index(start, end, end_inclusive)`: the ordered minute
boundaries from `floor(start)` up to the stop boundary.  The source walks a
`while current <= stop` loop adding one minute each time; here the same list
is produced by mapping over `List.range`. -/
def build_minute_index (startTime endTime : ℤ) (endInclusive : Bool := true) : List ℤ :=
  let startMinute := floor_to_utc_minute startTime
  let endMinute := floor_to_utc_minute endTime
  let stop := if endInclusive then endMinute else endMinute - 60
  if stop < startMinute then []
  else (List.range ((stop - startMinute).toNat / 60 + 1)).map
    (fun k => startMinute + 60 * (k : ℤ))

/-! ## Minute aligner (`align_records_to_minute_index`) -/

/-- The dynamic type of a record's timestamp value: an ISO string parsing to
an instant, a datetime carrying an instant, or any other Python value. -/
inductive TsValue where
  | str (t : ℤ)
  | dt (t : ℤ)
  | other
deriving DecidableEq

/-- The instant carried by a timestamp value, when it is a string or datetime. -/
def tsInstant : TsValue → Option ℤ
  | .str t => some t
  | .dt t => some t
  | .other => none

/-- A normalized source record: a timestamp value plus the rest of the
payload (the dict minus the timestamp key), abstracted as `α`. -/
structure SourceRecord (α : Type) where
  ts : TsValue
  payload : α

/-- Update of the aligned map (a Python dict keyed by minute). -/
def mapUpdate {α : Type} (m : ℤ → Option α) (k : ℤ) (v : α) : ℤ → Option α :=
  fun x => if x = k then some v else m x

/-- The record loop of `align_records_to_minute_index`. -/
def alignGo {α : Type} (minuteIndex : List ℤ) (dupPolicy : String) :
    List (SourceRecord α) → (ℤ → Option α) → Except String (ℤ → Option α)
  | [], acc => .ok acc
  | r :: rest, acc =>
    match tsInstant r.ts with
    | none => .error "record timestamp must be str or datetime"
    | some t =>
      let minute := floor_to_utc_minute t
      if minute ∈ minuteIndex then
        match acc minute with
        | none => alignGo minuteIndex dupPolicy rest (mapUpdate acc minute r.payload)
        | some _ =>
          if dupPolicy = "last" then
            alignGo minuteIndex dupPolicy rest (mapUpdate acc minute r.payload)
          else
            alignGo minuteIndex dupPolicy rest acc
      else
        alignGo minuteIndex dupPolicy rest acc

/-- `align_records_to_minute_index(minute_index, records, *, timestamp_key,
duplicate_policy)`: validate the policy, then fold the records into a
minute-keyed map.  The timestamp key extraction is pre-applied in the
`SourceRecord` shape. -/
def align_records_to_minute_index {α : Type} (minuteIndex : List ℤ)
    (records : List (SourceRecord α)) (dupPolicy : String := "last") :
    Except String (ℤ → Option α) :=
  if dupPolicy ≠ "last" ∧ dupPolicy ≠ "first" then
    .error "duplicate_policy must be last or first"
  else
    alignGo minuteIndex dupPolicy records (fun _ => none)

/-- The payloads of the records whose timestamp floors to minute `m`, in
input order. -/
def minutePayloads {α : Type} (records : List (SourceRecord α)) (m : ℤ) : List α :=
  records.filterMap (fun r =>
    match tsInstant r.ts with
    | some t => if floor_to_utc_minute t = m then some r.payload else none
    | none => none)

/-! ### Alignment lemmas -/

theorem mapUpdate_same {α : Type} (m : ℤ → Option α) (k : ℤ) (v : α) :
    mapUpdate m k v k = some v := by
  simp [mapUpdate]

theorem mapUpdate_other {α : Type} (m : ℤ → Option α) (k x : ℤ) (v : α)
    (h : x ≠ k) : mapUpdate m k v x = m x := by
  simp [mapUpdate, h]

theorem alignGo_first_char {α : Type} (idx : List ℤ) (m : ℤ) (hm : m ∈ idx) :
    ∀ (recs : List (SourceRecord α)) (acc : ℤ → Option α),
      (∀ r ∈ recs, tsInstant r.ts ≠ none) →
      ∃ f, alignGo idx "first" recs acc = .ok f ∧
        f m = (acc m).or (minutePayloads recs m).head? := by
  intro recs
  induction recs with
  | nil =>
    intro acc _
    exact ⟨acc, rfl, by simp [minutePayloads]⟩
  | cons r rest ih =>
    intro acc hts
    have hr : tsInstant r.ts ≠ none := hts r (List.mem_cons_self r rest)
    have hrest : ∀ r' ∈ rest, tsInstant r'.ts ≠ none :=
      fun r' h' => hts r' (List.mem_cons_of_mem r h')
    obtain ⟨t, ht⟩ := Option.ne_none_iff_exists'.mp hr
    by_cases hfloor : floor_to_utc_minute t = m
    · have hmem : floor_to_utc_minute t ∈ idx := hfloor ▸ hm
      cases haccm : acc (floor_to_utc_minute t) with
      | none =>
        obtain ⟨f, hf, hfm⟩ := ih (mapUpdate acc (floor_to_utc_minute t) r.payload) hrest
        refine ⟨f, ?_, ?_⟩
        · simp only [alignGo, ht, hmem, if_pos, haccm]
          exact hf
        · rw [hfm, hfloor, mapUpdate_same]
          simp [minutePayloads, ht, hfloor, hfloor ▸ haccm]
      | some v =>
        obtain ⟨f, hf, hfm⟩ := ih acc hrest
        refine ⟨f, ?_, ?_⟩
        · simp only [alignGo, ht, hmem, if_pos, haccm]
          exact hf
        · rw [hfm]
          simp [minutePayloads, ht, hfloor, hfloor ▸ haccm]
    · have htail : minutePayloads (r :: rest) m = minutePayloads rest m := by
        simp [minutePayloads, ht, hfloor]
      by_cases hmem : floor_to_utc_minute t ∈ idx
      · cases haccm : acc (floor_to_utc_minute t) with
        | none =>
          obtain ⟨f, hf, hfm⟩ := ih (mapUpdate acc (floor_to_utc_minute t) r.payload) hrest
          refine ⟨f, ?_, ?_⟩
          · simp only [alignGo, ht, hmem, if_pos, haccm]
            exact hf
          · rw [hfm, htail, mapUpdate_other acc _ m _ (fun h => hfloor h.symm)]
        | some v =>
          obtain ⟨f, hf, hfm⟩ := ih acc hrest
          refine ⟨f, ?_, ?_⟩
          · simp only [alignGo, ht, hmem, if_pos, haccm]
            exact hf
          · rw [hfm, htail]
      · obtain ⟨f, hf, hfm⟩ := ih acc hrest
        refine ⟨f, ?_, ?_⟩
        · simp only [alignGo, ht, hmem, if_neg, not_false_iff]
          exact hf
        · rw [hfm, htail]

theorem alignGo_last_char {α : Type} (idx : List ℤ) (m : ℤ) (hm : m ∈ idx) :
    ∀ (recs : List (SourceRecord α)) (acc : ℤ → Option α),
      (∀ r ∈ recs, tsInstant r.ts ≠ none) →
      ∃ g, alignGo idx "last" recs acc = .ok g ∧
        g m = ((minutePayloads recs m).getLast?).or (acc m) := by
  intro recs
  induction recs with
  | nil =>
    intro acc _
    exact ⟨acc, rfl, by simp [minutePayloads]⟩
  | cons r rest ih =>
    intro acc hts
    have hr : tsInstant r.ts ≠ none := hts r (List.mem_cons_self r rest)
    have hrest : ∀ r' ∈ rest, tsInstant r'.ts ≠ none :=
      fun r' h' => hts r' (List.mem_cons_of_mem r h')
    obtain ⟨t, ht⟩ := Option.ne_none_iff_exists'.mp hr
    by_cases hfloor : floor_to_utc_minute t = m
    · have hmem : floor_to_utc_minute t ∈ idx := hfloor ▸ hm
      have hcons : minutePayloads (r :: rest) m = r.payload :: minutePayloads rest m := by
        simp [minutePayloads, ht, hfloor]
      cases haccm : acc (floor_to_utc_minute t) with
      | none =>
        obtain ⟨g, hg, hgm⟩ := ih (mapUpdate acc (floor_to_utc_minute t) r.payload) hrest
        refine ⟨g, ?_, ?_⟩
        · simp only [alignGo, ht, hmem, if_pos, haccm]
          exact hg
        · rw [hgm, hfloor, mapUpdate_same, hcons, List.getLast?_cons]
          cases (minutePayloads rest m).getLast? <;>
            simp [hfloor ▸ haccm]
      | some v =>
        obtain ⟨g, hg, hgm⟩ := ih (mapUpdate acc (floor_to_utc_minute t) r.payload) hrest
        refine ⟨g, ?_, ?_⟩
        · simp only [alignGo, ht, hmem, if_pos, haccm]
          exact hg
        · rw [hgm, hfloor, mapUpdate_same, hcons, List.getLast?_cons]
          cases (minutePayloads rest m).getLast? <;>
            simp [hfloor ▸ haccm]
    · have htail : minutePayloads (r :: rest) m = minutePayloads rest m := by
        simp [minutePayloads, ht, hfloor]
      by_cases hmem : floor_to_utc_minute t ∈ idx
      · cases haccm : acc (floor_to_utc_minute t) with
        | none =>
          obtain ⟨g, hg, hgm⟩ := ih (mapUpdate acc (floor_to_utc_minute t) r.payload) hrest
          refine ⟨g, ?_, ?_⟩
          · simp only [alignGo, ht, hmem, if_pos, haccm]
            exact hg
          · rw [hgm, htail, mapUpdate_other acc _ m _ (fun h => hfloor h.symm)]
        | some v =>
          obtain ⟨g, hg, hgm⟩ := ih (mapUpdate acc (floor_to_utc_minute t) r.payload) hrest
          refine ⟨g, ?_, ?_⟩
          · simp only [alignGo, ht, hmem, if_pos, haccm]
            exact hg
          · rw [hgm, htail, mapUpdate_other acc _ m _ (fun h => hfloor h.symm)]
      · obtain ⟨g, hg, hgm⟩ := ih acc hrest
        refine ⟨g, ?_, ?_⟩
        · simp only [alignGo, ht, hmem, if_neg, not_false_iff]
          exact hg
        · rw [hgm, htail]

theorem alignGo_other_error {α : Type} (idx : List ℤ) (policy : String) :
    ∀ (recs : List (SourceRecord α)) (acc : ℤ → Option α),
      (∃ r ∈ recs, r.ts = TsValue.other) →
      alignGo idx policy recs acc = .error "record timestamp must be str or datetime" := by
  intro recs
  induction recs with
  | nil =>
    intro acc hbad
    obtain ⟨r, hr, _⟩ := hbad
    exact absurd hr (List.not_mem_nil r)
  | cons r rest ih =>
    intro acc hbad
    by_cases hr : r.ts = TsValue.other
    · simp [alignGo, hr, tsInstant]
    · have hrest : ∃ x ∈ rest, x.ts = TsValue.other := by
        obtain ⟨r', hr', ho⟩ := hbad
        rcases List.mem_cons.mp hr' with h | h
        · exact absurd (h ▸ ho) hr
        · exact ⟨r', h, ho⟩
      obtain ⟨t, ht⟩ : ∃ t, tsInstant r.ts = some t := by
        cases htv : r.ts with
        | str u => exact ⟨u, by simp [tsInstant]⟩
        | dt u => exact ⟨u, by simp [tsInstant]⟩
        | other => exact absurd htv hr
      simp only [alignGo, ht]
      by_cases hmem : floor_to_utc_minute t ∈ idx
      · rw [if_pos hmem]
        cases haccv : acc (floor_to_utc_minute t) with
        | none => exact ih _ hrest
        | some v =>
          by_cases hlast : policy = "last"
          · rw [if_pos hlast]
            exact ih _ hrest
          · rw [if_neg hlast]
            exact ih _ hrest
      · rw [if_neg hmem]
        exact ih _ hrest

/-! ### Claims about the minute index builder and aligner -/

/-- C7 counterexample: an inverted window (`end < start`, here end 10s,
start 30s after the epoch) does not make `build_minute_index` fail; it
returns the non-empty index `[0]`, because both instants floor to minute 0
and no `end > start` validation exists in the code. -/
theorem build_minute_index_inverted_window_not_error :
    (10 : ℤ) ≤ 30 ∧ build_minute_index 30 10 true = [0] := by
  constructor
  · norm_num
  · decide

/-- C7 (amended): `build_minute_index` performs no `end > start` validation
and never fails.  For every window whose computed stop boundary precedes
`floor(start)` it returns the empty sequence, and an inverted or degenerate
window (`end ≤ start`) whose endpoints floor to the same minute returns the
singleton `[floor(start)]` rather than raising. -/
theorem build_minute_index_window_cases :
    (∀ (s e : ℤ) (inc : Bool),
        (if inc then floor_to_utc_minute e else floor_to_utc_minute e - 60) <
            floor_to_utc_minute s →
        build_minute_index s e inc = []) ∧
    (∀ s e : ℤ, e ≤ s → floor_to_utc_minute e = floor_to_utc_minute s →
        build_minute_index s e true = [floor_to_utc_minute s]) := by
  constructor
  · intro s e inc hstop
    simp only [build_minute_index]
    rw [if_pos hstop]
  · intro s e _ hfe
    simp only [build_minute_index, if_true, hfe, sub_self, Int.toNat_zero,
      Nat.zero_div, Nat.zero_add]
    rw [if_neg (lt_irrefl _)]
    simp [List.range_succ]

/-- Witness for C7 (amended): the window start = 90s, end = 70s is inverted,
both instants floor to minute 60, and the builder returns `[60]`. -/
theorem build_minute_index_window_cases_witness :
    build_minute_index 90 70 true = [floor_to_utc_minute 90] :=
  build_minute_index_window_cases.2 90 70 (by norm_num) (by decide)

/-- C6: for any minute `m` of the canonical index and any record list whose
timestamps are all strings or datetimes, aligning with policy "first" maps
`m` to the payload of the first record (in input order) whose timestamp
floors to `m`, and policy "last" to the payload of the last such record —
selection is by input order, independent of the timestamp values. -/
theorem align_duplicate_policy_order_stable {α : Type} (idx : List ℤ)
    (recs : List (SourceRecord α)) (m : ℤ) (hm : m ∈ idx)
    (hts : ∀ r ∈ recs, tsInstant r.ts ≠ none) :
    ∃ f g, align_records_to_minute_index idx recs "first" = .ok f ∧
      align_records_to_minute_index idx recs "last" = .ok g ∧
      f m = (minutePayloads recs m).head? ∧
      g m = (minutePayloads recs m).getLast? := by
  obtain ⟨f, hf, hfm⟩ := alignGo_first_char idx m hm recs (fun _ => none) hts
  obtain ⟨g, hg, hgm⟩ := alignGo_last_char idx m hm recs (fun _ => none) hts
  refine ⟨f, g, ?_, ?_, ?_, ?_⟩
  · simpa [align_records_to_minute_index] using hf
  · simpa [align_records_to_minute_index] using hg
  · simpa using hfm
  · simpa using hgm

/-- Witness for C6, the spec example: records at 00:00:10 (price 100) and
00:00:20 (price 101) collide on minute 0; policy "first" selects 100 and
policy "last" selects 101. -/
theorem align_duplicate_policy_order_stable_witness :
    ∃ f g, align_records_to_minute_index [(0 : ℤ)]
        [⟨TsValue.str 10, (100 : ℚ)⟩, ⟨TsValue.str 20, 101⟩] "first" = .ok f ∧
      align_records_to_minute_index [(0 : ℤ)]
        [⟨TsValue.str 10, (100 : ℚ)⟩, ⟨TsValue.str 20, 101⟩] "last" = .ok g ∧
      f 0 = some 100 ∧ g 0 = some 101 := by
  obtain ⟨f, g, h1, h2, h3, h4⟩ :=
    align_duplicate_policy_order_stable [(0 : ℤ)]
      [⟨TsValue.str 10, (100 : ℚ)⟩, ⟨TsValue.str 20, 101⟩] 0 (by decide)
      (by intro r hr
          fin_cases hr <;> simp [tsInstant])
  refine ⟨f, g, h1, h2, ?_, ?_⟩
  · rw [h3]
    decide
  · rw [h4]
    decide

/-- C10: for a valid duplicate policy, a record list containing a record
whose timestamp value is neither a string nor a datetime makes
`align_records_to_minute_index` raise the ValueError
"record timestamp must be str or datetime" instead of skipping the record
or degrading the timestamp to null. -/
theorem align_rejects_non_timestamp_record {α : Type} (idx : List ℤ)
    (recs : List (SourceRecord α)) (policy : String)
    (hpol : policy = "first" ∨ policy = "last")
    (hbad : ∃ r ∈ recs, r.ts = TsValue.other) :
    align_records_to_minute_index idx recs policy =
      .error "record timestamp must be str or datetime" := by
  have hvalid : ¬(policy ≠ "last" ∧ policy ≠ "first") := by
    rcases hpol with h | h <;> simp [h]
  simp only [align_records_to_minute_index]
  rw [if_neg hvalid]
  exact alignGo_other_error idx policy recs (fun _ => none) hbad

/-- Witness for C10: a single record with a non-string, non-datetime
timestamp makes alignment fail with the ValueError message. -/
theorem align_rejects_non_timestamp_record_witness :
    align_records_to_minute_index [(0 : ℤ)] [⟨TsValue.other, (1 : ℚ)⟩] "last" =
      .error "record timestamp must be str or datetime" :=
  align_rejects_non_timestamp_record [(0 : ℤ)] [⟨TsValue.other, (1 : ℚ)⟩] "last"
    (Or.inr rfl) ⟨⟨TsValue.other, (1 : ℚ)⟩, List.mem_singleton_self _, rfl⟩

/-! ## Price cleaning engine (`ingestion/pipeline_align.py`) -/

/-- A merged minute row restricted to the fields the cleaning engine reads
for one DEX series: the parsed `minute_utc` instant (epoch seconds), the raw
observed DEX price field, and the same-minute CEX close.  `none` models an
absent or unparseable field. -/
structure MergedRow where
  minute : ℤ
  price : Option ℚ
  cex : Option ℚ
deriving DecidableEq

/-- `_as_valid_price`: a parsed numeric field is a valid price when finite
and strictly positive (rationals are always finite). -/
def as_valid_price (v : Option ℚ) : Option ℚ :=
  v.bind (fun q => if 0 < q then some q else none)

/-- The sequential forward-fill state: `last_price` and `last_trade_minute`. -/
structure FFState where
  lastPrice : Option ℚ
  lastMinute : Option ℤ
deriving DecidableEq

def initState : FFState := ⟨none, none⟩

/-- The outlier screen of `_forward_fill_uniswap_mid_prices`: flag when the
ratio to the same-minute CEX close leaves `[0.5, 1.5]`, or otherwise when the
jump ratio to the last accepted price leaves `[1/10, 10]`. -/
def ffOutlier (st : FFState) (r : MergedRow) : Bool :=
  match as_valid_price r.price with
  | none => false
  | some p =>
    let refOut :=
      match as_valid_price r.cex with
      | some c => decide (p / c < 1 / 2) || decide ((3 : ℚ) / 2 < p / c)
      | none => false
    if refOut then true
    else
      match st.lastPrice with
      | some lp => decide (p / lp < 1 / 10) || decide ((10 : ℚ) < p / lp)
      | none => false

/-- The observation surviving the outlier screen this minute, if any. -/
def ffAccepted (st : FFState) (r : MergedRow) : Option ℚ :=
  if ffOutlier st r then none else as_valid_price r.price

/-- A cleaned row for one DEX series: price field after the pass, the age
field, the outlier flag, and the spike-patch flag (initialized to false by
the patch pass `setdefault`). -/
structure CleanRow where
  minute : ℤ
  price : Option ℚ
  age : Option ℤ
  outlier : Bool
  patch : Bool
deriving DecidableEq

/-- One minute of the forward-fill loop body: accept a valid non-outlier
observation (age 0, state advances); otherwise carry the last accepted price
forward with its age; otherwise only null the age (the raw price field is
left in place). -/
def ffStep (st : FFState) (r : MergedRow) : FFState × CleanRow :=
  match ffAccepted st r with
  | some p =>
    (⟨some p, some r.minute⟩, ⟨r.minute, some p, some 0, ffOutlier st r, false⟩)
  | none =>
    match st.lastPrice, st.lastMinute with
    | some lp, some lm =>
      (st, ⟨r.minute, some lp, some (max 0 ((r.minute - lm).fdiv 60)),
        ffOutlier st r, false⟩)
    | _, _ => (st, ⟨r.minute, r.price, none, ffOutlier st r, false⟩)

def ffGo (st : FFState) : List MergedRow → List CleanRow
  | [] => []
  | r :: rest => (ffStep st r).2 :: ffGo (ffStep st r).1 rest

/-- The per-series causal pass of `_forward_fill_uniswap_mid_prices`. -/
def forward_fill_pass (rows : List MergedRow) : List CleanRow := ffGo initState rows

/-- The forward-fill state after folding a row list from `st`. -/
def ffStateAfter (st : FFState) (l : List MergedRow) : FFState :=
  l.foldl (fun s r => (ffStep s r).1) st

/-- The forward-fill state reached just before row `i` of the pass. -/
def ffStateAt (l : List MergedRow) (i : ℕ) : FFState :=
  ffStateAfter initState (l.take i)

def mrowD : MergedRow := ⟨0, none, none⟩

def crowD : CleanRow := ⟨0, none, none, false, false⟩

/-! ### Forward-fill indexing lemmas -/

theorem ffGo_length (st : FFState) (l : List MergedRow) :
    (ffGo st l).length = l.length := by
  induction l generalizing st with
  | nil => rfl
  | cons r rest ih => simp [ffGo, ih]

theorem ffStateAfter_cons (st : FFState) (r : MergedRow) (l : List MergedRow) :
    ffStateAfter st (r :: l) = ffStateAfter (ffStep st r).1 l := rfl

theorem ffGo_getD (l : List MergedRow) :
    ∀ (st : FFState) (i : ℕ), i < l.length →
      (ffGo st l).getD i crowD =
        (ffStep (ffStateAfter st (l.take i)) (l.getD i mrowD)).2 := by
  induction l with
  | nil =>
    intro st i hi
    exact absurd hi (by simp)
  | cons r rest ih =>
    intro st i hi
    cases i with
    | zero => rfl
    | succ j =>
      have hj : j < rest.length := Nat.lt_of_succ_lt_succ (by simpa using hi)
      calc (ffGo st (r :: rest)).getD (j + 1) crowD
          = (ffGo (ffStep st r).1 rest).getD j crowD := rfl
        _ = (ffStep (ffStateAfter (ffStep st r).1 (rest.take j))
              (rest.getD j mrowD)).2 := ih (ffStep st r).1 j hj
        _ = (ffStep (ffStateAfter st ((r :: rest).take (j + 1)))
              ((r :: rest).getD (j + 1) mrowD)).2 := rfl

theorem ffStateAt_succ (l : List MergedRow) (i : ℕ) (hi : i < l.length) :
    ffStateAt l (i + 1) = (ffStep (ffStateAt l i) (l.getD i mrowD)).1 := by
  have htake : l.take (i + 1) = l.take i ++ [l.getD i mrowD] := by
    rw [List.take_succ]
    simp [List.getD, List.getElem?_eq_getElem hi]
  simp [ffStateAt, ffStateAfter, htake, List.foldl_append]

theorem ffStep_fst_of_not_accepted (st : FFState) (r : MergedRow)
    (h : ffAccepted st r = none) : (ffStep st r).1 = st := by
  cases hlp : st.lastPrice with
  | none => simp [ffStep, h, hlp]
  | some lp =>
    cases hlm : st.lastMinute with
    | none => simp [ffStep, h, hlp, hlm]
    | some lm => simp [ffStep, h, hlp, hlm]

/-! ### Forward-fill state invariant -/

/-- The minute recorded in the state divides into whole minutes and lies
strictly before every remaining row (used with strictly increasing canonical
minute inputs). -/
def stateBound (st : FFState) (l : List MergedRow) : Prop :=
  ∀ lm, st.lastMinute = some lm → (60 : ℤ) ∣ lm ∧ ∀ r ∈ l, lm < r.minute

theorem stateBound_step (st : FFState) (r : MergedRow) (l : List MergedRow)
    (h : stateBound st (r :: l)) (hdiv : (60 : ℤ) ∣ r.minute)
    (hmono : ∀ x ∈ l, r.minute < x.minute) :
    stateBound (ffStep st r).1 l := by
  cases hacc : ffAccepted st r with
  | some p =>
    intro lm hlm
    have : (ffStep st r).1 = ⟨some p, some r.minute⟩ := by simp [ffStep, hacc]
    rw [this] at hlm
    cases hlm
    exact ⟨hdiv, hmono⟩
  | none =>
    rw [ffStep_fst_of_not_accepted st r hacc]
    intro lm hlm
    obtain ⟨h1, h2⟩ := h lm hlm
    exact ⟨h1, fun x hx => h2 x (List.mem_cons_of_mem r hx)⟩

theorem stateBound_at (l : List MergedRow)
    (hmono : List.Pairwise (fun a b => a.minute < b.minute) l)
    (hdiv : ∀ r ∈ l, (60 : ℤ) ∣ r.minute) :
    ∀ (st : FFState), stateBound st l →
      ∀ i, stateBound (ffStateAfter st (l.take i)) (l.drop i) := by
  induction l with
  | nil =>
    intro st hst i
    simpa [ffStateAfter] using hst
  | cons r rest ih =>
    intro st hst i
    cases i with
    | zero => simpa [ffStateAfter] using hst
    | succ j =>
      have hpair := (List.pairwise_cons.mp hmono).1
      have hmono' := (List.pairwise_cons.mp hmono).2
      have hdiv' : ∀ x ∈ rest, (60 : ℤ) ∣ x.minute :=
        fun x hx => hdiv x (List.mem_cons_of_mem r hx)
      have hst' : stateBound (ffStep st r).1 rest :=
        stateBound_step st r rest hst (hdiv r (List.mem_cons_self r rest)) hpair
      have := ih hmono' hdiv' (ffStep st r).1 hst' j
      simpa [ffStateAfter_cons] using this

theorem stateBound_ffStateAt (l : List MergedRow)
    (hmono : List.Pairwise (fun a b => a.minute < b.minute) l)
    (hdiv : ∀ r ∈ l, (60 : ℤ) ∣ r.minute) (i : ℕ) :
    stateBound (ffStateAt l i) (l.drop i) :=
  stateBound_at l hmono hdiv initState (fun lm hlm => by simp [initState] at hlm) i

theorem ffStep_outlier_flag (st : FFState) (r : MergedRow) :
    ((ffStep st r).2).outlier = ffOutlier st r := by
  cases hacc : ffAccepted st r with
  | some p => simp [ffStep, hacc]
  | none =>
    cases hlp : st.lastPrice with
    | none => simp [ffStep, hacc, hlp]
    | some lp =>
      cases hlm : st.lastMinute with
      | none => simp [ffStep, hacc, hlp, hlm]
      | some lm => simp [ffStep, hacc, hlp, hlm]

theorem fdiv_sixty_pos (lm m : ℤ) (hdlm : (60 : ℤ) ∣ lm) (hdm : (60 : ℤ) ∣ m)
    (hlt : lm < m) : 1 ≤ (m - lm).fdiv 60 := by
  obtain ⟨a, ha⟩ := hdm
  obtain ⟨b, hb⟩ := hdlm
  have hsub : m - lm = 60 * (a - b) := by rw [ha, hb]; ring
  have hfdiv : (m - lm).fdiv 60 = a - b := by
    rw [hsub, Int.mul_fdiv_cancel_left _ (by norm_num : (60 : ℤ) ≠ 0)]
  have hb_lt_a : b < a := by
    have : 60 * b < 60 * a := by rw [← ha, ← hb]; exact hlt
    exact lt_of_mul_lt_mul_left this (by norm_num)
  omega

/-- C1: for a series of canonical minutes (strictly increasing whole-minute
boundaries), at any row with no accepted observation but a prior accepted
price, the cleaned price equals the last accepted price and the age field is
the floor-divided whole minutes elapsed since the last accepted minute
(strictly positive here, never negative); and the age field equals 0 exactly
when this row itself had a valid, non-outlier observed price. -/
theorem forward_fill_invariant (l : List MergedRow)
    (hmono : List.Pairwise (fun a b => a.minute < b.minute) l)
    (hdiv : ∀ r ∈ l, (60 : ℤ) ∣ r.minute)
    (i : ℕ) (hi : i < l.length) :
    (ffAccepted (ffStateAt l i) (l.getD i mrowD) = none →
      ∀ lp lm, (ffStateAt l i).lastPrice = some lp →
        (ffStateAt l i).lastMinute = some lm →
        ((forward_fill_pass l).getD i crowD).price = some lp ∧
        ((forward_fill_pass l).getD i crowD).age =
          some (((l.getD i mrowD).minute - lm).fdiv 60) ∧
        1 ≤ ((l.getD i mrowD).minute - lm).fdiv 60) ∧
    (((forward_fill_pass l).getD i crowD).age = some 0 ↔
      (ffAccepted (ffStateAt l i) (l.getD i mrowD)).isSome = true) := by
  have hout : (forward_fill_pass l).getD i crowD =
      (ffStep (ffStateAt l i) (l.getD i mrowD)).2 := ffGo_getD l initState i hi
  have hsb := stateBound_ffStateAt l hmono hdiv i
  have hmem_l : l.getD i mrowD ∈ l := by
    rw [List.getD_eq_getElem l mrowD hi]
    exact List.getElem_mem hi
  have hmem_drop : l.getD i mrowD ∈ l.drop i := by
    rw [List.getD_eq_getElem l mrowD hi, List.drop_eq_getElem_cons hi]
    exact List.mem_cons_self _ _
  have hage_pos : ∀ lm, (ffStateAt l i).lastMinute = some lm →
      1 ≤ (((l.getD i mrowD).minute - lm).fdiv 60) := by
    intro lm hlm
    obtain ⟨hd, hlt⟩ := hsb lm hlm
    exact fdiv_sixty_pos lm _ hd (hdiv _ hmem_l) (hlt _ hmem_drop)
  set st := ffStateAt l i with hst
  set r := l.getD i mrowD with hr
  constructor
  · intro hacc lp lm hlp hlm
    have h1 := hage_pos lm hlm
    have hmax : max (0 : ℤ) ((r.minute - lm).fdiv 60) = (r.minute - lm).fdiv 60 :=
      max_eq_right (le_trans (by norm_num) h1)
    rw [hout]
    simp [ffStep, hacc, hlp, hlm, hmax, h1]
  · rw [hout]
    cases hacc : ffAccepted st r with
    | some p => simp [ffStep, hacc]
    | none =>
      cases hlp : st.lastPrice with
      | none =>
        cases hlm : st.lastMinute with
        | none => simp [ffStep, hacc, hlp, hlm]
        | some lm => simp [ffStep, hacc, hlp, hlm]
      | some lp =>
        cases hlm : st.lastMinute with
        | none => simp [ffStep, hacc, hlp, hlm]
        | some lm =>
          have h1 := hage_pos lm hlm
          have : max (0 : ℤ) ((r.minute - lm).fdiv 60) ≠ 0 := by
            omega
          simp [ffStep, hacc, hlp, hlm, this]

/-- The forward-fill state after an initial accepted observation of price
100 at minute 0 (used by concrete witnesses). -/
theorem ffStateAt_one_accept (rest : List MergedRow) :
    ffStateAt (⟨0, some 100, some 100⟩ :: rest) 1 = ⟨some 100, some 0⟩ := by
  norm_num [ffStateAt, ffStateAfter, ffStep, ffAccepted, ffOutlier, as_valid_price,
    initState]

/-- Witness for C1: a two-row series where minute 0 has an accepted price
100 and minute 60 has no observation; the second row forward-fills the price
100 with age 1. -/
theorem forward_fill_invariant_witness :
    ((forward_fill_pass [⟨0, some 100, some 100⟩, ⟨60, none, none⟩]).getD 1 crowD).price =
        some 100 ∧
      ((forward_fill_pass [⟨0, some 100, some 100⟩, ⟨60, none, none⟩]).getD 1 crowD).age =
        some 1 := by
  have hstate := ffStateAt_one_accept [⟨60, none, none⟩]
  have hacc : ffAccepted
      (ffStateAt [⟨0, some 100, some 100⟩, ⟨60, none, none⟩] 1)
      (List.getD [⟨0, some 100, some 100⟩, ⟨60, none, none⟩] 1 mrowD) = none := by
    rw [hstate]
    norm_num [ffAccepted, ffOutlier, as_valid_price, List.getD]
  have h := forward_fill_invariant [⟨0, some 100, some 100⟩, ⟨60, none, none⟩]
    (by decide) (by intro r hr; fin_cases hr <;> norm_num) 1 (by norm_num)
  obtain ⟨hp, ha, _⟩ := h.1 hacc 100 0 (by rw [hstate]) (by rw [hstate])
  refine ⟨hp, ?_⟩
  rw [ha]
  decide

/-- C2: at any row with a valid observed DEX price `p`, a valid same-minute
CEX close `c`, and an existing last accepted price `lp`, the outlier flag is
set if and only if `p/c` leaves `[1/2, 3/2]` or `p/lp` leaves `[1/10, 10]`;
and a flagged row does not advance the forward-fill state
(`last_accepted_price` / `last_accepted_minute` are unchanged). -/
theorem outlier_invariant (l : List MergedRow) (i : ℕ) (hi : i < l.length)
    (p c lp : ℚ)
    (hp : as_valid_price (l.getD i mrowD).price = some p)
    (hc : as_valid_price (l.getD i mrowD).cex = some c)
    (hlp : (ffStateAt l i).lastPrice = some lp) :
    (((forward_fill_pass l).getD i crowD).outlier = true ↔
      (p / c < 1 / 2 ∨ (3 : ℚ) / 2 < p / c ∨ p / lp < 1 / 10 ∨ (10 : ℚ) < p / lp)) ∧
    (((forward_fill_pass l).getD i crowD).outlier = true →
      ffStateAt l (i + 1) = ffStateAt l i) := by
  have hout : (forward_fill_pass l).getD i crowD =
      (ffStep (ffStateAt l i) (l.getD i mrowD)).2 := ffGo_getD l initState i hi
  have hflag : ((forward_fill_pass l).getD i crowD).outlier =
      ffOutlier (ffStateAt l i) (l.getD i mrowD) := by
    rw [hout, ffStep_outlier_flag]
  constructor
  · rw [hflag]
    simp only [ffOutlier, hp, hc, hlp]
    by_cases h1 : p / c < 1 / 2 <;> by_cases h2 : (3 : ℚ) / 2 < p / c <;>
      by_cases h3 : p / lp < 1 / 10 <;> by_cases h4 : (10 : ℚ) < p / lp <;>
      simp [h1, h2, h3, h4]
  · intro hflag_true
    have houtl : ffOutlier (ffStateAt l i) (l.getD i mrowD) = true := by
      rw [← hflag]; exact hflag_true
    have hacc : ffAccepted (ffStateAt l i) (l.getD i mrowD) = none := by
      simp only [ffAccepted]
      rw [houtl]
      simp
    rw [ffStateAt_succ l i hi, ffStep_fst_of_not_accepted _ _ hacc]

/-- Witness for C2: minute 0 accepts price 100 (CEX close 100); minute 60
observes price 1000 against CEX close 100, a 10x reference ratio, so the
outlier flag is set and the forward-fill state does not advance. -/
theorem outlier_invariant_witness :
    ((forward_fill_pass [⟨0, some 100, some 100⟩, ⟨60, some 1000, some 100⟩]).getD 1
        crowD).outlier = true ∧
      ffStateAt [⟨0, some 100, some 100⟩, ⟨60, some 1000, some 100⟩] 2 =
        ffStateAt [⟨0, some 100, some 100⟩, ⟨60, some 1000, some 100⟩] 1 := by
  have hstate := ffStateAt_one_accept [⟨60, some 1000, some 100⟩]
  have h := outlier_invariant [⟨0, some 100, some 100⟩, ⟨60, some 1000, some 100⟩]
    1 (by norm_num) 1000 100 100
    (by norm_num [List.getD, as_valid_price])
    (by norm_num [List.getD, as_valid_price])
    (by rw [hstate])
  have hflag : ((forward_fill_pass
      [⟨0, some 100, some 100⟩, ⟨60, some 1000, some 100⟩]).getD 1 crowD).outlier = true :=
    h.1.mpr (by norm_num)
  exact ⟨hflag, h.2 hflag⟩

/-! ## Spike patch pass (`_patch_single_minute_uniswap_spikes`) -/

/-- The spike conditions at one interior row: this row has age exactly 0,
all three prices are valid, the two neighbors are within the 1.03 stability
ratio, and this row differs from both neighbors by a ratio of at least 1.20.
`prev` is the previous row as already processed by the pass (the source loop
mutates the list in place), `nxt` the not-yet-visited next row. -/
def spikeCond (prev curr nxt : CleanRow) : Bool :=
  curr.age == some 0 &&
    match as_valid_price prev.price, as_valid_price curr.price,
        as_valid_price nxt.price with
    | some pp, some cp, some np =>
      !(decide (pp ≤ 0) || decide (cp ≤ 0) || decide (np ≤ 0)) &&
        decide (max pp np / min pp np ≤ 103 / 100) &&
        decide (6 / 5 ≤ max cp pp / min cp pp) &&
        decide (6 / 5 ≤ max cp np / min cp np)
    | _, _, _ => false

/-- Replace the row's price by the arithmetic mean of the neighbors' valid
prices and set the outlier and spike-patch flags. -/
def applyPatch (prev curr nxt : CleanRow) : CleanRow :=
  match as_valid_price prev.price, as_valid_price nxt.price with
  | some pp, some np =>
    { curr with price := some ((pp + np) / 2), outlier := true, patch := true }
  | _, _ => curr

def spikeStep (prev curr nxt : CleanRow) : CleanRow :=
  if spikeCond prev curr nxt then applyPatch prev curr nxt else curr

/-- The in-place loop over interior indices, threading the (possibly
patched) previous row. -/
def spikeGo (prev : CleanRow) : List CleanRow → List CleanRow
  | curr :: nxt :: rest =>
    spikeStep prev curr nxt :: spikeGo (spikeStep prev curr nxt) (nxt :: rest)
  | rest => rest

/-- `_patch_single_minute_uniswap_spikes` for one series: the first row is
never a candidate (the loop starts at index 1). -/
def patch_spikes_pass : List CleanRow → List CleanRow
  | [] => []
  | first :: rest => first :: spikeGo first rest

/-- Full per-series cleaning: the causal forward-fill/outlier pass followed
by the non-causal spike-patch pass. -/
def clean_series (rows : List MergedRow) : List CleanRow :=
  patch_spikes_pass (forward_fill_pass rows)

/-! ### Spike pass indexing lemmas -/

theorem spikeGo_length :
    ∀ (l : List CleanRow) (prev : CleanRow), (spikeGo prev l).length = l.length := by
  intro l
  induction l with
  | nil => intro prev; rfl
  | cons c rest ih =>
    intro prev
    cases rest with
    | nil => rfl
    | cons n rest2 =>
      have := ih (spikeStep prev c n)
      simp only [spikeGo, List.length_cons] at this ⊢
      omega

theorem spikeGo_getD :
    ∀ (l : List CleanRow) (prev : CleanRow) (i : ℕ), i + 1 < l.length →
      (spikeGo prev l).getD i crowD =
        spikeStep (if i = 0 then prev else (spikeGo prev l).getD (i - 1) crowD)
          (l.getD i crowD) (l.getD (i + 1) crowD) := by
  intro l
  induction l with
  | nil =>
    intro prev i hi
    simp at hi
  | cons c rest ih =>
    intro prev i hi
    cases rest with
    | nil =>
      simp at hi
    | cons n rest2 =>
      cases i with
      | zero => rfl
      | succ j =>
        have hj : j + 1 < (n :: rest2).length := by
          simpa using hi
        have hstep := ih (spikeStep prev c n) j hj
        cases j with
        | zero => simpa [spikeGo] using hstep
        | succ k => simpa [spikeGo] using hstep

theorem spikeGo_getD_last :
    ∀ (l : List CleanRow) (prev : CleanRow) (i : ℕ), i + 1 = l.length →
      (spikeGo prev l).getD i crowD = l.getD i crowD := by
  intro l
  induction l with
  | nil =>
    intro prev i hi
    simp at hi
  | cons c rest ih =>
    intro prev i hi
    cases rest with
    | nil =>
      have : i = 0 := by simpa using hi
      subst this
      rfl
    | cons n rest2 =>
      cases i with
      | zero => simp at hi
      | succ j =>
        have hj : j + 1 = (n :: rest2).length := by simpa using hi
        have := ih (spikeStep prev c n) j hj
        simpa [spikeGo] using this

theorem patch_spikes_pass_getD (l : List CleanRow) (i : ℕ) (h1 : 1 ≤ i)
    (h2 : i + 1 < l.length) :
    (patch_spikes_pass l).getD i crowD =
      spikeStep ((patch_spikes_pass l).getD (i - 1) crowD)
        (l.getD i crowD) (l.getD (i + 1) crowD) := by
  cases l with
  | nil => simp at h2
  | cons f rest =>
    cases i with
    | zero => omega
    | succ j =>
      have hj : j + 1 < rest.length := by simpa using h2
      have hmain := spikeGo_getD rest f j hj
      have hL : (patch_spikes_pass (f :: rest)).getD (j + 1) crowD =
          (spikeGo f rest).getD j crowD := by
        simp [patch_spikes_pass]
      have hprev : (if j = 0 then f else (spikeGo f rest).getD (j - 1) crowD) =
          (patch_spikes_pass (f :: rest)).getD j crowD := by
        cases j with
        | zero => simp [patch_spikes_pass]
        | succ k => simp [patch_spikes_pass]
      rw [hL, hmain, hprev]
      simp [patch_spikes_pass]

/-- C3: (i) during the spike pass, every interior row whose age is 0 and
whose neighbor prices — the previous row as already processed, the next row
as left by forward-fill — satisfy the 1.03 stability and 1.20 jump
thresholds is replaced by the mean of the neighbor prices with both the
outlier and the spike-patch flags set; (ii) the first row and the last row
of a series are never patched; (iii) the forward-filled 3-point series
`[100, 125, 101]` (no CEX reference) has its middle value patched to
`100.5 = 201/2` with both flags set. -/
theorem spike_patch_behaviour :
    (∀ (l : List CleanRow) (i : ℕ), 1 ≤ i → i + 1 < l.length →
      spikeCond ((patch_spikes_pass l).getD (i - 1) crowD)
          (l.getD i crowD) (l.getD (i + 1) crowD) = true →
      ∃ pp np,
        as_valid_price (((patch_spikes_pass l).getD (i - 1) crowD).price) = some pp ∧
        as_valid_price ((l.getD (i + 1) crowD).price) = some np ∧
        (patch_spikes_pass l).getD i crowD =
          { l.getD i crowD with
              price := some ((pp + np) / 2), outlier := true, patch := true }) ∧
    (∀ (l : List CleanRow),
      (patch_spikes_pass l).getD 0 crowD = l.getD 0 crowD ∧
      ∀ i, i + 1 = l.length → (patch_spikes_pass l).getD i crowD = l.getD i crowD) ∧
    (((clean_series [⟨0, some 100, none⟩, ⟨60, some 125, none⟩,
          ⟨120, some 101, none⟩]).getD 1 crowD).price = some (201 / 2) ∧
      ((clean_series [⟨0, some 100, none⟩, ⟨60, some 125, none⟩,
          ⟨120, some 101, none⟩]).getD 1 crowD).outlier = true ∧
      ((clean_series [⟨0, some 100, none⟩, ⟨60, some 125, none⟩,
          ⟨120, some 101, none⟩]).getD 1 crowD).patch = true) := by
  refine ⟨?_, ?_, ?_⟩
  · intro l i h1 h2 hcond
    have hmain := patch_spikes_pass_getD l i h1 h2
    rw [hmain]
    rw [spikeStep, if_pos hcond]
    revert hcond
    simp only [spikeCond, applyPatch]
    cases hpp : as_valid_price (((patch_spikes_pass l).getD (i - 1) crowD).price) with
    | none => simp
    | some pp =>
      cases hcp : as_valid_price ((l.getD i crowD).price) with
      | none => simp
      | some cp =>
        cases hnp : as_valid_price ((l.getD (i + 1) crowD).price) with
        | none => simp
        | some np =>
          intro _
          exact ⟨pp, np, rfl, rfl, rfl⟩
  · intro l
    constructor
    · cases l with
      | nil => rfl
      | cons f rest => rfl
    · intro i hi
      cases l with
      | nil => simp at hi
      | cons f rest =>
        cases i with
        | zero =>
          have : rest = [] := by
            cases rest with
            | nil => rfl
            | cons a b => simp at hi
          subst this
          rfl
        | succ j =>
          have hj : j + 1 = rest.length := by simpa using hi
          have := spikeGo_getD_last rest f j hj
          simpa [patch_spikes_pass] using this
  · have hff : forward_fill_pass [⟨0, some 100, none⟩, ⟨60, some 125, none⟩,
        ⟨120, some 101, none⟩] =
        [⟨0, some 100, some 0, false, false⟩, ⟨60, some 125, some 0, false, false⟩,
          ⟨120, some 101, some 0, false, false⟩] := by
      norm_num [forward_fill_pass, ffGo, ffStep, ffAccepted, ffOutlier,
        as_valid_price, initState]
    have hpatch : patch_spikes_pass
        [⟨0, some 100, some 0, false, false⟩, ⟨60, some 125, some 0, false, false⟩,
          ⟨120, some 101, some 0, false, false⟩] =
        [⟨0, some 100, some 0, false, false⟩,
          ⟨60, some (201 / 2), some 0, true, true⟩,
          ⟨120, some 101, some 0, false, false⟩] := by
      norm_num [patch_spikes_pass, spikeGo, spikeStep, spikeCond, applyPatch,
        as_valid_price, max_def, min_def]
    rw [clean_series, hff, hpatch]
    refine ⟨rfl, rfl, rfl⟩

/-- Witness for C3: applying the interior-row part of the spike-patch
theorem to a concrete forward-filled list with the jump-and-revert pattern
100, 125, 101 at ages 0 patches the middle row to 100.5 with both flags. -/
theorem spike_patch_behaviour_witness :
    ((patch_spikes_pass
        [⟨0, some 100, some 0, false, false⟩, ⟨60, some 125, some 0, false, false⟩,
          ⟨120, some 101, some 0, false, false⟩]).getD 1 crowD).price =
      some (201 / 2) := by
  obtain ⟨pp, np, hpp, hnp, hrow⟩ := spike_patch_behaviour.1
    [⟨0, some 100, some 0, false, false⟩, ⟨60, some 125, some 0, false, false⟩,
      ⟨120, some 101, some 0, false, false⟩] 1 (by norm_num) (by norm_num)
    (by norm_num [spikeCond, patch_spikes_pass, spikeGo, spikeStep, applyPatch,
      as_valid_price, max_def, min_def])
  have hpp' : pp = 100 := by
    have : as_valid_price (((patch_spikes_pass
        [⟨0, some 100, some 0, false, false⟩, ⟨60, some 125, some 0, false, false⟩,
          ⟨120, some 101, some 0, false, false⟩]).getD 0 crowD).price) = some 100 := by
      norm_num [patch_spikes_pass, spikeGo, spikeStep, spikeCond, applyPatch,
        as_valid_price, max_def, min_def]
    rw [this] at hpp
    exact (Option.some_inj.mp hpp).symm
  have hnp' : np = 101 := by
    have : as_valid_price ((List.getD
        [⟨0, some 100, some 0, false, false⟩, ⟨60, some 125, some 0, false, false⟩,
          ⟨120, some 101, some 0, false, false⟩] 2 crowD).price) = some 101 := by
      norm_num [as_valid_price]
    rw [this] at hnp
    exact (Option.some_inj.mp hnp).symm
  rw [hrow, hpp', hnp']
  norm_num

/-! ### Rows outside the spike pattern are left unchanged -/

theorem patch_spikes_pass_getD_zero (l : List CleanRow) :
    (patch_spikes_pass l).getD 0 crowD = l.getD 0 crowD := by
  cases l with
  | nil => rfl
  | cons f rest => rfl

theorem patch_spikes_pass_getD_last (l : List CleanRow) (i : ℕ)
    (hi : i + 1 = l.length) :
    (patch_spikes_pass l).getD i crowD = l.getD i crowD := by
  cases l with
  | nil => simp at hi
  | cons f rest =>
    cases i with
    | zero =>
      have : rest = [] := by
        cases rest with
        | nil => rfl
        | cons a b => simp at hi
      subst this
      rfl
    | succ j =>
      have hj : j + 1 = rest.length := by simpa using hi
      have := spikeGo_getD_last rest f j hj
      simpa [patch_spikes_pass] using this

theorem patch_pass_keeps_nonzero_age (l : List CleanRow) (i : ℕ)
    (hi : i < l.length) (hage : ¬(l.getD i crowD).age = some 0) :
    (patch_spikes_pass l).getD i crowD = l.getD i crowD := by
  rcases Nat.eq_zero_or_pos i with h0 | h1
  · subst h0
    exact patch_spikes_pass_getD_zero l
  · by_cases hlast : i + 1 = l.length
    · exact patch_spikes_pass_getD_last l i hlast
    · have h2 : i + 1 < l.length := by omega
      rw [patch_spikes_pass_getD l i h1 h2]
      have hbeq : ((l.getD i crowD).age == some 0) = false :=
        beq_eq_false_iff_ne.mpr hage
      have hcond : spikeCond ((patch_spikes_pass l).getD (i - 1) crowD)
          (l.getD i crowD) (l.getD (i + 1) crowD) = false := by
        simp only [spikeCond, hbeq, Bool.false_and]
      simp only [spikeStep, hcond]
      simp

/-- C4 counterexample: a single-minute series whose only observed print 300
is discarded as an outlier against CEX close 100, with no prior accepted
price, ends the cleaning pass with a null age but with the raw price 300
still in the price field — not a null price as claimed. -/
theorem null_before_first_accept_counterexample :
    ((clean_series [⟨0, some 300, some 100⟩]).getD 0 crowD).age = none ∧
      ((clean_series [⟨0, some 300, some 100⟩]).getD 0 crowD).outlier = true ∧
      ((clean_series [⟨0, some 300, some 100⟩]).getD 0 crowD).price = some 300 := by
  norm_num [clean_series, forward_fill_pass, ffGo, ffStep, ffAccepted, ffOutlier,
    as_valid_price, initState, patch_spikes_pass, spikeGo]

/-- C4 (amended): at every minute strictly before the first accepted
(valid, non-outlier) observation — forward-fill state still empty and this
minute not accepted either — the cleaned output has a null age field, and
the price field is left equal to the raw observed field: null whenever the
source had no value there (in particular an all-null series stays null
throughout), but an outlier-discarded print is retained. -/
theorem null_before_first_accept (l : List MergedRow) (i : ℕ) (hi : i < l.length)
    (hstate : ffStateAt l i = initState)
    (hacc : ffAccepted (ffStateAt l i) (l.getD i mrowD) = none) :
    ((clean_series l).getD i crowD).age = none ∧
      ((clean_series l).getD i crowD).price = (l.getD i mrowD).price := by
  have hout : (forward_fill_pass l).getD i crowD =
      (ffStep (ffStateAt l i) (l.getD i mrowD)).2 := ffGo_getD l initState i hi
  rw [hstate] at hacc
  have hrow : (forward_fill_pass l).getD i crowD =
      ⟨(l.getD i mrowD).minute, (l.getD i mrowD).price, none,
        ffOutlier initState (l.getD i mrowD), false⟩ := by
    rw [hout, hstate]
    set r := l.getD i mrowD with hr
    simp only [initState] at hacc
    simp [ffStep, hacc, initState]
  have hlen : i < (forward_fill_pass l).length := by
    rw [forward_fill_pass, ffGo_length]
    exact hi
  have hkeep := patch_pass_keeps_nonzero_age (forward_fill_pass l) i hlen
    (by rw [hrow]; simp)
  rw [clean_series, hkeep, hrow]
  exact ⟨rfl, rfl⟩

/-- Witness for C4 (amended): the single outlier print 300 against CEX 100
yields a null age and retains the raw 300 in the price field. -/
theorem null_before_first_accept_witness :
    ((clean_series [⟨0, some 300, some 100⟩]).getD 0 crowD).age = none ∧
      ((clean_series [⟨0, some 300, some 100⟩]).getD 0 crowD).price = some 300 := by
  have h := null_before_first_accept [⟨0, some 300, some 100⟩] 0 (by norm_num) rfl
    (by norm_num [ffStateAt, ffStateAfter, ffAccepted, ffOutlier, as_valid_price,
      initState, List.getD])
  exact ⟨h.1, by rw [h.2]; rfl⟩

/-! ## Realized volatility (`_realized_vol_annualized`, identical in
`ingestion/features.py` and `ingestion/dataset_builder.py`) -/

/-- The arithmetic mean of a list of reals. -/
noncomputable def listMean (xs : List ℝ) : ℝ := xs.sum / xs.length

/-- `statistics.pstdev`: the population standard deviation. -/
noncomputable def pstdev (xs : List ℝ) : ℝ :=
  Real.sqrt (listMean (xs.map (fun x => (x - listMean xs) ^ 2)))

/-- The return-collection loop of `_realized_vol_annualized`: `k` log
returns starting at offset `start` (`prev = prices[offset-1]`,
`curr = prices[offset]`), failing when any price involved is missing or
non-positive. -/
noncomputable def collectReturns (prices : List (Option ℝ)) :
    ℕ → ℕ → Option (List ℝ)
  | _, 0 => some []
  | start, k + 1 =>
    match prices.getD (start - 1) none, prices.getD start none with
    | some prev, some curr =>
      if prev ≤ 0 ∨ curr ≤ 0 then none
      else (collectReturns prices (start + 1) k).map
        (fun rest => Real.log (curr / prev) :: rest)
    | _, _ => none

/-- `_realized_vol_annualized(prices, index, *, window, annualization_minutes)`:
null while `index < window`, otherwise the population standard deviation of
the window's trailing log returns scaled by `sqrt(annualization_minutes)`. -/
noncomputable def realized_vol_annualized (prices : List (Option ℝ)) (index : ℕ)
    (window : ℕ) (annualizationMinutes : ℕ) : Option ℝ :=
  if window < 1 ∨ index < window then none
  else
    match collectReturns prices (index - window + 1) window with
    | none => none
    | some returns => some (pstdev returns * Real.sqrt annualizationMinutes)

theorem collectReturns_eq (prices : List (Option ℝ)) (p : ℕ → ℝ) :
    ∀ (k start : ℕ), 1 ≤ start →
      (∀ j, start - 1 ≤ j → j ≤ start + k - 1 →
        prices.getD j none = some (p j) ∧ 0 < p j) →
      collectReturns prices start k =
        some ((List.range k).map
          (fun i => Real.log (p (start + i) / p (start + i - 1)))) := by
  intro k
  induction k with
  | zero =>
    intro start _ _
    rfl
  | succ k ih =>
    intro start hstart hvals
    have hprev := hvals (start - 1) (le_refl _) (by omega)
    have hcurr := hvals start (by omega) (by omega)
    have hrec := ih (start + 1) (by omega)
      (fun j hj1 hj2 => hvals j (by omega) (by omega))
    simp only [collectReturns, hprev.1, hcurr.1]
    rw [if_neg (by push_neg; exact ⟨hprev.2, hcurr.2⟩)]
    rw [hrec]
    simp only [Option.map_some', Option.some.injEq]
    rw [List.range_succ_eq_map]
    simp only [List.map_cons, List.map_map]
    congr 1
    apply List.map_congr_left
    intro i _
    simp only [Function.comp_apply, Nat.succ_eq_add_one]
    have h1 : start + 1 + i = start + (i + 1) := by omega
    rw [h1]

/-- C5 counterexample: with window 3 the output at row index `window - 1 = 2`
is still null (the code requires `index ≥ window`), refuting definedness at
row index `window - 1`; the repository's own realized-vol test pins exactly
this behaviour. -/
theorem realized_vol_start_counterexample :
    realized_vol_annualized [some 100, some 101, some 102, some 104] 2 3 1 = none ∧
      (2 : ℕ) = 3 - 1 := by
  constructor
  · simp [realized_vol_annualized]
  · rfl

/-- C5 (amended): the realized-volatility output is null at every row index
smaller than `window` and becomes defined exactly at row index `window`
(0-indexed): for any `index ≥ window ≥ 1` whose trailing `window + 1`
prices are present and positive, it equals the population standard deviation
of the window's log returns multiplied by `sqrt(annualization_minutes)`. -/
theorem realized_vol_start_index :
    (∀ (prices : List (Option ℝ)) (index window ann : ℕ), index < window →
      realized_vol_annualized prices index window ann = none) ∧
    (∀ (prices : List (Option ℝ)) (index window ann : ℕ) (p : ℕ → ℝ),
      1 ≤ window → window ≤ index →
      (∀ j, index - window ≤ j → j ≤ index →
        prices.getD j none = some (p j) ∧ 0 < p j) →
      realized_vol_annualized prices index window ann =
        some (pstdev ((List.range window).map
            (fun i => Real.log (p (index - window + 1 + i) /
              p (index - window + 1 + i - 1)))) *
          Real.sqrt ann)) := by
  constructor
  · intro prices index window ann hlt
    simp [realized_vol_annualized, hlt]
  · intro prices index window ann p hw hiw hvals
    have hstart : 1 ≤ index - window + 1 := by omega
    have hcoll := collectReturns_eq prices p window (index - window + 1) hstart
      (fun j hj1 hj2 => hvals j (by omega) (by omega))
    have hnot : ¬(window < 1 ∨ index < window) := by omega
    rw [realized_vol_annualized, if_neg hnot, hcoll]

/-- Witness for C5 (amended): a constant price series of 1s with window 1 is
null at index 0 and defined at index 1 with value `pstdev [log 1] * sqrt 1`. -/
theorem realized_vol_start_index_witness :
    realized_vol_annualized [some 1, some 1] 0 1 1 = none ∧
      realized_vol_annualized [some 1, some 1] 1 1 1 =
        some (pstdev [Real.log 1] * Real.sqrt 1) := by
  constructor
  · exact realized_vol_start_index.1 [some 1, some 1] 0 1 1 (by norm_num)
  · have h := realized_vol_start_index.2 [some 1, some 1] 1 1 1 (fun _ => 1)
      (by norm_num) (by norm_num)
      (by intro j h0 h1
          interval_cases j <;> norm_num [List.getD])
    simpa using h
/-! ## Rolling congestion percentile (`_rolling_percentile_rank`,
`ingestion/dataset_builder.py`) -/

/-- `bisect.insort`: insert into a sorted list after any equal elements. -/
def insort (x : ℚ) : List ℚ → List ℚ
  | [] => [x]
  | y :: ys => if x < y then x :: y :: ys else y :: insort x ys

/-- The eviction branch `bisect_left` + conditional `pop`: on the sorted
window this removes the first occurrence of `x` when present and leaves the
list unchanged otherwise. -/
def removeFirst (x : ℚ) : List ℚ → List ℚ
  | [] => []
  | y :: ys => if y = x then ys else y :: removeFirst x ys

/-- `bisect.bisect_right` on the sorted window: the number of elements
`≤ x`, i.e. the inclusive rank-from-the-right. -/
def bisectRight (x : ℚ) : List ℚ → ℕ
  | [] => 0
  | y :: ys => if x < y then 0 else 1 + bisectRight x ys

/-- The `while len(window_queue) > window_size` eviction loop: pop from the
left and drop the popped value from the sorted window until the queue is,
at most, `window_size` long. -/
def evict (w : ℕ) : List (Option ℚ) → List ℚ → List (Option ℚ) × List ℚ
  | [], s => ([], s)
  | removed :: rest, s =>
    if w < (removed :: rest).length then
      match removed with
      | none => evict w rest s
      | some x => evict w rest (removeFirst x s)
    else (removed :: rest, s)

/-- The insertion branch: a non-null value joins the sorted window. -/
def prInsert (v : Option ℚ) (s : List ℚ) : List ℚ :=
  match v with
  | some x => insort x s
  | none => s

/-- The reporting branch: `rank(current)` over the current sorted window,
null for a null value or an empty window. -/
def prOut (v : Option ℚ) (s : List ℚ) : Option ℚ :=
  match v with
  | none => none
  | some x =>
    if s.isEmpty then none
    else some ((bisectRight x s : ℚ) / s.length)

/-- One iteration of `_rolling_percentile_rank`: append to the queue, insert
into the sorted window, evict, then report. -/
def prStep (w : ℕ) (st : List (Option ℚ) × List ℚ) (v : Option ℚ) :
    (List (Option ℚ) × List ℚ) × Option ℚ :=
  (evict w (st.1 ++ [v]) (prInsert v st.2),
    prOut v (evict w (st.1 ++ [v]) (prInsert v st.2)).2)

def prGo (w : ℕ) (st : List (Option ℚ) × List ℚ) :
    List (Option ℚ) → List (Option ℚ)
  | [] => []
  | v :: rest => (prStep w st v).2 :: prGo w (prStep w st v).1 rest

/-- `_rolling_percentile_rank(values, *, window_size)`. -/
def rolling_percentile_rank (values : List (Option ℚ)) (windowSize : ℕ) :
    Except String (List (Option ℚ)) :=
  if windowSize < 1 then .error "window_size must be >= 1"
  else .ok (prGo windowSize ([], []) values)

/-- The trailing window: the last `w` entries of a list. -/
def trailW (w : ℕ) (l : List (Option ℚ)) : List (Option ℚ) :=
  l.drop (l.length - w)

/-- The inclusive rank-from-the-right of `x` in a multiset of values. -/
def countLE (x : ℚ) (l : List ℚ) : ℕ :=
  (l.filter (fun y => decide (y ≤ x))).length

/-! ### Sorted-window lemmas -/

theorem insort_perm (x : ℚ) : ∀ l : List ℚ, (insort x l).Perm (x :: l) := by
  intro l
  induction l with
  | nil => simp [insort]
  | cons y ys ih =>
    rw [insort]
    by_cases hxy : x < y
    · rw [if_pos hxy]
    · rw [if_neg hxy]
      exact (ih.cons y).trans (List.Perm.swap x y ys)

theorem insort_sorted (x : ℚ) :
    ∀ l : List ℚ, l.Sorted (· ≤ ·) → (insort x l).Sorted (· ≤ ·) := by
  intro l
  induction l with
  | nil => intro _; simp [insort]
  | cons y ys ih =>
    intro hs
    obtain ⟨hy, hys⟩ := List.sorted_cons.mp hs
    rw [insort]
    by_cases hxy : x < y
    · rw [if_pos hxy]
      refine List.sorted_cons.mpr ⟨?_, hs⟩
      intro b hb
      rcases List.mem_cons.mp hb with hb | hb
      · exact hb ▸ le_of_lt hxy
      · exact le_trans (le_of_lt hxy) (hy b hb)
    · rw [if_neg hxy]
      refine List.sorted_cons.mpr ⟨?_, ih hys⟩
      intro b hb
      rcases List.mem_cons.mp ((insort_perm x ys).mem_iff.mp hb) with hb | hb
      · exact hb ▸ le_of_not_lt hxy
      · exact hy b hb

theorem removeFirst_eq_erase (x : ℚ) : ∀ l : List ℚ, removeFirst x l = l.erase x := by
  intro l
  induction l with
  | nil => rfl
  | cons y ys ih =>
    by_cases h : y = x
    · simp [removeFirst, List.erase_cons, h]
    · simp [removeFirst, List.erase_cons, h, ih]

theorem removeFirst_sorted (x : ℚ) (l : List ℚ) (h : l.Sorted (· ≤ ·)) :
    (removeFirst x l).Sorted (· ≤ ·) := by
  rw [removeFirst_eq_erase]
  exact h.sublist (List.erase_sublist x l)

theorem removeFirst_perm (x : ℚ) (l : List ℚ) (L : List ℚ)
    (h : l.Perm (x :: L)) : (removeFirst x l).Perm L := by
  rw [removeFirst_eq_erase]
  have h2 := h.erase x
  rwa [List.erase_cons_head] at h2

theorem bisectRight_eq_countLE (x : ℚ) :
    ∀ l : List ℚ, l.Sorted (· ≤ ·) → bisectRight x l = countLE x l := by
  intro l
  induction l with
  | nil => intro _; rfl
  | cons y ys ih =>
    intro hs
    obtain ⟨hy, hys⟩ := List.sorted_cons.mp hs
    rw [bisectRight]
    by_cases hxy : x < y
    · rw [if_pos hxy]
      have : ∀ b ∈ y :: ys, ¬(b ≤ x) := by
        intro b hb hbx
        rcases List.mem_cons.mp hb with hb | hb
        · exact absurd (lt_of_lt_of_le hxy (hb ▸ hbx)) (lt_irrefl x)
        · exact absurd (lt_of_lt_of_le hxy (le_trans (hy b hb) hbx))
            (lt_irrefl x)
      rw [countLE, List.filter_eq_nil_iff.mpr (by
        intro b hb
        simpa using this b hb)]
      rfl
    · rw [if_neg hxy, ih hys]
      rw [countLE, countLE, List.filter_cons, if_pos (by
        simpa using le_of_not_lt hxy)]
      simp [Nat.add_comm]

theorem countLE_perm (x : ℚ) (l l' : List ℚ) (h : l.Perm l') :
    countLE x l = countLE x l' :=
  (h.filter _).length_eq

theorem evict_of_le (w : ℕ) (q : List (Option ℚ)) (s : List ℚ)
    (h : q.length ≤ w) : evict w q s = (q, s) := by
  cases q with
  | nil => rfl
  | cons r rest =>
    have h2 : ¬w < (r :: rest).length := by omega
    simp only [evict]
    rw [if_neg h2]

theorem evict_of_full (w : ℕ) (removed : Option ℚ) (rest : List (Option ℚ))
    (s : List ℚ) (h : rest.length = w) :
    evict w (removed :: rest) s =
      (rest, match removed with
        | none => s
        | some x => removeFirst x s) := by
  cases removed with
  | none =>
    have hlt : w < ((none : Option ℚ) :: rest).length := by
      simp only [List.length_cons, h]
      omega
    simp only [evict]
    rw [if_pos hlt]
    exact evict_of_le w rest s (le_of_eq h)
  | some x =>
    have hlt : w < (some x :: rest).length := by
      simp only [List.length_cons, h]
      omega
    simp only [evict]
    rw [if_pos hlt]
    exact evict_of_le w rest _ (le_of_eq h)

theorem trailW_of_le (w : ℕ) (l : List (Option ℚ)) (h : l.length ≤ w) :
    trailW w l = l := by
  rw [trailW]
  have : l.length - w = 0 := by omega
  rw [this, List.drop_zero]

theorem trailW_cons_full (w : ℕ) (h0 : Option ℚ) (t : List (Option ℚ))
    (v : Option ℚ) (hlen : (h0 :: t).length = w) :
    trailW w ((h0 :: t) ++ [v]) = t ++ [v] := by
  rw [trailW]
  have h1 : ((h0 :: t) ++ [v]).length - w = 1 := by
    simp only [List.length_append, List.length_cons, List.length_nil] at hlen ⊢
    omega
  rw [h1]
  rfl

theorem trailW_trailW_append (w : ℕ) (a b : List (Option ℚ)) :
    trailW w (trailW w a ++ b) = trailW w (a ++ b) := by
  simp only [trailW]
  rw [← List.drop_append_of_le_length (Nat.sub_le a.length w)]
  rw [List.drop_drop]
  congr 1
  simp only [List.length_drop, List.length_append]
  omega

theorem trailW_length_le (w : ℕ) (l : List (Option ℚ)) :
    (trailW w l).length ≤ w := by
  simp only [trailW, List.length_drop]
  omega

/-- The model value of one report: the inclusive rank of the current value
within the non-null entries of the trailing window divided by the count of
those entries. -/
def prModel (w : ℕ) (q : List (Option ℚ)) (v : Option ℚ) : Option ℚ :=
  match v with
  | none => none
  | some x =>
    if ((trailW w q).filterMap id).isEmpty then none
    else some ((countLE x ((trailW w q).filterMap id) : ℚ) /
      ((trailW w q).filterMap id).length)

theorem prStep_spec (w : ℕ) (hw : 1 ≤ w) (st : List (Option ℚ) × List ℚ)
    (v : Option ℚ) (hq : st.1.length ≤ w) (hsort : st.2.Sorted (· ≤ ·))
    (hperm : st.2.Perm (st.1.filterMap id)) :
    (prStep w st v).1.1 = trailW w (st.1 ++ [v]) ∧
      (prStep w st v).1.1.length ≤ w ∧
      (prStep w st v).1.2.Sorted (· ≤ ·) ∧
      (prStep w st v).1.2.Perm ((prStep w st v).1.1.filterMap id) ∧
      (prStep w st v).2 = prModel w (st.1 ++ [v]) v := by
  have hs1sort : (prInsert v st.2).Sorted (· ≤ ·) := by
    cases v with
    | none => exact hsort
    | some x => exact insort_sorted x st.2 hsort
  have hs1perm : (prInsert v st.2).Perm ((st.1 ++ [v]).filterMap id) := by
    cases v with
    | none => simpa [prInsert] using hperm
    | some x =>
      have h1 := insort_perm x st.2
      have h2 : (x :: st.2).Perm (x :: st.1.filterMap id) := hperm.cons x
      have h3 : ((st.1 ++ [some x]).filterMap id) = st.1.filterMap id ++ [x] := by
        simp
      rw [prInsert, h3]
      exact (h1.trans h2).trans (List.perm_append_singleton x _).symm
  have hev : (evict w (st.1 ++ [v]) (prInsert v st.2)).1 = trailW w (st.1 ++ [v]) ∧
      ((evict w (st.1 ++ [v]) (prInsert v st.2)).2).Sorted (· ≤ ·) ∧
      ((evict w (st.1 ++ [v]) (prInsert v st.2)).2).Perm
        ((trailW w (st.1 ++ [v])).filterMap id) := by
    rcases lt_or_eq_of_le hq with hlt | heq
    · have hle : (st.1 ++ [v]).length ≤ w := by
        simp only [List.length_append, List.length_cons, List.length_nil]
        omega
      rw [evict_of_le w _ _ hle, trailW_of_le w _ hle]
      exact ⟨rfl, hs1sort, hs1perm⟩
    · obtain ⟨h0, t, hcons⟩ : ∃ h0 t, st.1 = h0 :: t := by
        have hne : st.1 ≠ [] := by
          intro hnil
          rw [hnil] at heq
          simp only [List.length_nil] at heq
          omega
        exact List.exists_cons_of_ne_nil hne
      have hlen : (t ++ [v]).length = w := by
        rw [hcons] at heq
        simp only [List.length_append, List.length_cons, List.length_nil] at heq ⊢
        omega
      have htr2 : trailW w (h0 :: (t ++ [v])) = t ++ [v] := by
        have h := trailW_cons_full w h0 t v (by
          rw [hcons] at heq
          exact heq)
        simpa using h
      rw [hcons] at hs1perm ⊢
      rw [List.cons_append] at hs1perm ⊢
      cases h0 with
      | none =>
        rw [evict_of_full w none (t ++ [v]) _ hlen, htr2]
        refine ⟨rfl, hs1sort, ?_⟩
        simpa using hs1perm
      | some y =>
        rw [evict_of_full w (some y) (t ++ [v]) _ hlen, htr2]
        have hy : (prInsert v st.2).Perm (y :: (t ++ [v]).filterMap id) := by
          simpa using hs1perm
        exact ⟨rfl, removeFirst_sorted y _ hs1sort, removeFirst_perm y _ _ hy⟩
  obtain ⟨hev1, hev2, hev3⟩ := hev
  have hp1 : (prStep w st v).1.1 = trailW w (st.1 ++ [v]) := hev1
  refine ⟨hp1, ?_, hev2, ?_, ?_⟩
  · rw [hp1]
    exact trailW_length_le w _
  · rw [hp1]
    exact hev3
  · show prOut v (evict w (st.1 ++ [v]) (prInsert v st.2)).2 = prModel w (st.1 ++ [v]) v
    cases v with
    | none => rfl
    | some x =>
      rw [prOut, prModel]
      have hlen2 : ((evict w (st.1 ++ [some x]) (prInsert (some x) st.2)).2).length =
          ((trailW w (st.1 ++ [some x])).filterMap id).length := hev3.length_eq
      have hcnt : bisectRight x
            ((evict w (st.1 ++ [some x]) (prInsert (some x) st.2)).2) =
          countLE x ((trailW w (st.1 ++ [some x])).filterMap id) := by
        rw [bisectRight_eq_countLE x _ hev2]
        exact countLE_perm x _ _ hev3
      have hemptyAux : ∀ l1 l2 : List ℚ, l1.length = l2.length →
          l1.isEmpty = l2.isEmpty := by
        intro l1 l2 h12
        cases l1 <;> cases l2 <;> simp_all
      have hemp : ((evict w (st.1 ++ [some x]) (prInsert (some x) st.2)).2).isEmpty =
          ((trailW w (st.1 ++ [some x])).filterMap id).isEmpty :=
        hemptyAux _ _ hlen2
      rw [hemp, hcnt, hlen2]

theorem prModel_trailW (w : ℕ) (q q' : List (Option ℚ)) (v : Option ℚ)
    (h : trailW w q = trailW w q') : prModel w q v = prModel w q' v := by
  cases v with
  | none => rfl
  | some x => simp [prModel, h]

theorem prGo_length (w : ℕ) :
    ∀ (vs : List (Option ℚ)) (st : List (Option ℚ) × List ℚ),
      (prGo w st vs).length = vs.length := by
  intro vs
  induction vs with
  | nil => intro st; rfl
  | cons v rest ih =>
    intro st
    simp [prGo, ih]

theorem prGo_spec (w : ℕ) (hw : 1 ≤ w) :
    ∀ (vs : List (Option ℚ)) (st : List (Option ℚ) × List ℚ),
      st.1.length ≤ w → st.2.Sorted (· ≤ ·) → st.2.Perm (st.1.filterMap id) →
      ∀ i, i < vs.length →
        (prGo w st vs).getD i none =
          prModel w (st.1 ++ vs.take (i + 1)) (vs.getD i none) := by
  intro vs
  induction vs with
  | nil =>
    intro st _ _ _ i hi
    simp at hi
  | cons v rest ih =>
    intro st hq hsort hperm i hi
    obtain ⟨hp1, hp2, hp3, hp4, hp5⟩ := prStep_spec w hw st v hq hsort hperm
    cases i with
    | zero => simpa [prGo] using hp5
    | succ j =>
      have hj : j < rest.length := by simpa using hi
      have hrec := ih (prStep w st v).1 hp2 hp3 hp4 j hj
      have happ : (st.1 ++ [v]) ++ rest.take (j + 1) =
          st.1 ++ (v :: rest).take (j + 2) := by
        rw [List.append_assoc]
        rfl
      have hmq : prModel w ((prStep w st v).1.1 ++ rest.take (j + 1))
            (rest.getD j none) =
          prModel w (st.1 ++ (v :: rest).take (j + 2)) (rest.getD j none) := by
        rw [hp1]
        apply prModel_trailW
        rw [← happ]
        exact trailW_trailW_append w (st.1 ++ [v]) (rest.take (j + 1))
      have hL : (prGo w st (v :: rest)).getD (j + 1) none =
          (prGo w (prStep w st v).1 rest).getD j none := rfl
      rw [hL, hrec, hmq]
      rfl

/-- C8 counterexample: for the series `[5]` with window size 3 the output is
`rank / len(sorted_window) = 1/1 = 1`, not `rank / window_size = 1/3` as the
claim states — the divisor is the count of non-null values currently in the
trailing window, not `window_size`. -/
theorem rolling_percentile_counterexample :
    rolling_percentile_rank [some 5] 3 = Except.ok [some 1] ∧ (1 : ℚ) ≠ 1 / 3 := by
  constructor
  · norm_num [rolling_percentile_rank, prGo, prStep, prInsert, prOut, evict,
      insort, bisectRight]
  · norm_num

/-- C8 (amended): for window size `W ≥ 1` the function succeeds, preserves
length, and at each position: a null current value yields null, and a
non-null current value `x` yields the inclusive rank-from-the-right of `x`
among the non-null values of the trailing `W`-element window divided by the
count of those non-null values (which equals `window_size` only when the
window is full of non-null values); values are evicted as they leave the
trailing window. -/
theorem rolling_percentile_rank_char (values : List (Option ℚ)) (w : ℕ)
    (hw : 1 ≤ w) :
    ∃ out, rolling_percentile_rank values w = Except.ok out ∧
      out.length = values.length ∧
      ∀ i, i < values.length →
        (values.getD i none = none → out.getD i none = none) ∧
        (∀ x, values.getD i none = some x →
          out.getD i none =
            some ((countLE x ((trailW w (values.take (i + 1))).filterMap id) : ℚ) /
              ((trailW w (values.take (i + 1))).filterMap id).length)) := by
  refine ⟨prGo w ([], []) values, ?_, ?_, ?_⟩
  · rw [rolling_percentile_rank, if_neg (by omega)]
  · exact prGo_length w values ([], [])
  · intro i hi
    have hspec := prGo_spec w hw values ([], []) (by simp) (by simp) (by simp) i hi
    have hnil : (([], []) : List (Option ℚ) × List ℚ).1 ++ values.take (i + 1) =
        values.take (i + 1) := by simp
    rw [hnil] at hspec
    constructor
    · intro hnone
      rw [hspec, hnone]
      rfl
    · intro x hx
      rw [hspec, hx]
      have hmem : x ∈ (trailW w (values.take (i + 1))).filterMap id := by
        have htake : values.take (i + 1) = values.take i ++ [values.getD i none] := by
          rw [List.take_succ]
          simp [List.getD, List.getElem?_eq_getElem hi]
        rw [htake, hx]
        have hdrop : trailW w (values.take i ++ [some x]) =
            (values.take i).drop ((values.take i ++ [some x]).length - w) ++
              [some x] := by
          rw [trailW]
          apply List.drop_append_of_le_length
          simp only [List.length_append, List.length_cons, List.length_nil]
          omega
        rw [hdrop]
        simp
      have hne : ¬((trailW w (values.take (i + 1))).filterMap id).isEmpty = true := by
        intro hcontra
        rw [List.isEmpty_iff] at hcontra
        rw [hcontra] at hmem
        exact absurd hmem (List.not_mem_nil x)
      simp only [prModel]
      rw [if_neg hne]

/-- Witness for C8 (amended): the single value 5 with window size 2 reports
rank 1 over 1 non-null value, i.e. 1. -/
theorem rolling_percentile_rank_char_witness :
    ∃ out, rolling_percentile_rank [some 5] 2 = Except.ok out ∧
      out.getD 0 none = some 1 := by
  obtain ⟨out, hok, hlen, hchar⟩ :=
    rolling_percentile_rank_char [some 5] 2 (by norm_num)
  refine ⟨out, hok, ?_⟩
  have h := (hchar 0 (by norm_num)).2 5 rfl
  rw [h]
  norm_num [trailW, countLE, List.filterMap_cons, List.filterMap_nil, List.filter]

/-! ## DEX price derivation (`_price_from_swap_amounts`,
`_sqrt_price_x96_to_price`, `_normalize_uniswap_rows`) -/

/-- A raw numeric field of a Uniswap row: absent or Python `None` (`none`),
present but unparseable (`some none`, e.g. the empty string), or parsing to
a rational (`some (some q)`).  The sentinel literals `0` and `"0"` parse to
`0` and are covered by the zero checks of the consumers. -/
structure UniRow where
  amount0 : Option (Option ℚ)
  amount1 : Option (Option ℚ)
  token1Price : Option (Option ℚ)
  token1_price : Option (Option ℚ)
  token0Price : Option (Option ℚ)
  token0_price : Option (Option ℚ)
  sqrtPriceX96 : Option (Option ℚ)
deriving DecidableEq

/-- `_price_from_swap_amounts`: both amounts present, parseable and
non-zero, then the larger of the two reciprocal absolute ratios (the
USD-per-base orientation heuristic); rational ratios are always finite. -/
def price_from_swap_amounts (r : UniRow) : Option ℚ :=
  match r.amount0, r.amount1 with
  | some (some a0), some (some a1) =>
    if a0 = 0 ∨ a1 = 0 then none
    else some (max |a1 / a0| |a0 / a1|)
  | _, _ => none

/-- `_sqrt_price_x96_to_price`: `(value * value) / 2^192` for a parseable
positive value, null otherwise. -/
def sqrt_price_x96_to_price (v : Option (Option ℚ)) : Option ℚ :=
  match v with
  | some (some x) => if x ≤ 0 then none else some (x * x / 2 ^ 192)
  | _ => none

/-- The first present, non-null candidate among `token1Price`,
`token1_price`, `token0Price`, `token0_price` (the loop breaks at the first
such candidate whether or not it parses). -/
def firstPriceField (r : UniRow) : Option (Option ℚ) :=
  r.token1Price <|> r.token1_price <|> r.token0Price <|> r.token0_price

/-- The `token0_price` derivation of `_normalize_uniswap_rows`: (a) the
swap-amount ratio; (b) else the parse of the first present explicit price
field (an unparseable value there leaves the price null and the loop
breaks); (c) else the `sqrtPriceX96` conversion, inverted when below 1;
otherwise null. -/
def normalize_token0_price (r : UniRow) : Option ℚ :=
  match price_from_swap_amounts r with
  | some p => some p
  | none =>
    match
      (match firstPriceField r with
       | some (some q) => some q
       | _ => none) with
    | some q => some q
    | none =>
      match sqrt_price_x96_to_price r.sqrtPriceX96 with
      | some p => if p < 1 then some (1 / p) else some p
      | none => none

/-- C9: the DEX price priority of the Source Normalizer — (a) a price
derived from both swap amounts (present, parseable, non-zero) wins and
equals the larger of the two reciprocal absolute ratios; (b) otherwise the
first present explicit `token1Price`-style field with a parseable value is
used verbatim; (c) otherwise (no such parseable field) the result is the
`sqrtPriceX96` conversion `x^2 / 2^192` (for parseable positive `x`),
inverted when the converted value is below 1, and null when that too is
unavailable. -/
theorem dex_price_priority (r : UniRow) :
    (∀ p, price_from_swap_amounts r = some p → normalize_token0_price r = some p) ∧
      (∀ a0 a1, r.amount0 = some (some a0) → r.amount1 = some (some a1) →
        a0 ≠ 0 → a1 ≠ 0 →
        price_from_swap_amounts r = some (max |a1 / a0| |a0 / a1|)) ∧
      (price_from_swap_amounts r = none →
        ∀ q, firstPriceField r = some (some q) → normalize_token0_price r = some q) ∧
      (price_from_swap_amounts r = none →
        (∀ q, firstPriceField r ≠ some (some q)) →
        normalize_token0_price r =
          (match sqrt_price_x96_to_price r.sqrtPriceX96 with
           | some p => if p < 1 then some (1 / p) else some p
           | none => none)) ∧
      (∀ x, r.sqrtPriceX96 = some (some x) → 0 < x →
        sqrt_price_x96_to_price r.sqrtPriceX96 = some (x * x / 2 ^ 192)) := by
  refine ⟨?_, ?_, ?_, ?_, ?_⟩
  · intro p h
    simp [normalize_token0_price, h]
  · intro a0 a1 h0 h1 hn0 hn1
    simp [price_from_swap_amounts, h0, h1, hn0, hn1]
  · intro h q hq
    simp [normalize_token0_price, h, hq]
  · intro h hq
    simp only [normalize_token0_price, h]
  · intro x hx hpos
    simp [sqrt_price_x96_to_price, hx, not_le.mpr hpos]

/-- Witness for C9: a swap of 2 base units against 200 quote units (both
parseable, non-zero) yields the orientation-maximised ratio 100, which wins
the priority order. -/
theorem dex_price_priority_witness :
    normalize_token0_price
      ⟨some (some 2), some (some 200), none, none, none, none, none⟩ = some 100 := by
  have h2 := (dex_price_priority
    ⟨some (some 2), some (some 200), none, none, none, none, none⟩).2.1
    2 200 rfl rfl (by norm_num) (by norm_num)
  have h1 := (dex_price_priority
    ⟨some (some 2), some (some 200), none, none, none, none, none⟩).1
    (max |(200 : ℚ) / 2| |(2 : ℚ) / 200|) h2
  rw [h1]
  norm_num [max_def, abs]

end FPD
